import Mathlib

/-!
Verification of the record-layout engine specified for the
CpuOptimizations repository.  The repository's source
(`src/alignments.cpp`) only declares concrete C++ structs under various
`#pragma pack` directives and prints their sizes; the layout engine
itself (`computeLayout`) exists only in the specification, so it is
modelled here from the spec's algorithm (spec §4.1) and checked against
the spec's stated properties and scenarios.
-/

/-- Modelled from the spec: a field descriptor `{name, size,
naturalAlignment}` (spec §3); sizes and alignments are byte counts. -/
structure FieldDescriptor where
  name : String
  size : Nat
  naturalAlignment : Nat
deriving DecidableEq

/-- Modelled from the spec: a record spec is an ordered list of field
descriptors plus an optional pack cap (spec §3). -/
structure RecordSpec where
  fields : List FieldDescriptor
  packCap : Option Nat
deriving DecidableEq

/-- Modelled from the spec: one field of a layout result, `(name,
offset, size)` (spec §3). -/
structure LayoutField where
  name : String
  offset : Nat
  size : Nat
deriving DecidableEq

/-- Modelled from the spec: the layout result `{totalSize, fields,
recordAlignment}` (spec §3). -/
structure LayoutResult where
  totalSize : Nat
  fields : List LayoutField
  recordAlignment : Nat
deriving DecidableEq

/-- Modelled from the spec: the single error kind of the engine
(spec §7). -/
inductive LayoutError where
  | InvalidConfiguration
deriving DecidableEq

/-- `isPowerOfTwo n` decides whether `n` is a positive power of two
(used by the spec's `InvalidConfiguration` precondition, spec §7). -/
def isPowerOfTwo (n : Nat) : Bool :=
  (List.range (n + 1)).any fun k => n == 2 ^ k

/-- Modelled from the spec: effective alignment of a field,
`packCap is set ? min(naturalAlignment, packCap) : naturalAlignment`
(spec §4.1 step 2a). -/
def effAlign (packCap : Option Nat) (naturalAlignment : Nat) : Nat :=
  match packCap with
  | some cap => min naturalAlignment cap
  | none => naturalAlignment

/-- Modelled from the spec: padding inserted to move `cursor` up to a
multiple of `a`, `(a - cursor % a) % a` (spec §4.1 step 2b). -/
def padTo (a cursor : Nat) : Nat :=
  (a - cursor % a) % a

/-- Modelled from the spec: the per-field loop of the layout algorithm
(spec §4.1 step 2): given the pack cap, remaining fields, current
cursor and current record alignment, returns the laid-out fields, the
final cursor and the final record alignment. -/
def layoutFields (pc : Option Nat) :
    List FieldDescriptor → Nat → Nat → List LayoutField × Nat × Nat
  | [], cursor, ra => ([], cursor, ra)
  | f :: fs, cursor, ra =>
    let a := effAlign pc f.naturalAlignment
    let off := cursor + padTo a cursor
    let r := layoutFields pc fs (off + f.size) (max ra a)
    (⟨f.name, off, f.size⟩ :: r.1, r.2.1, r.2.2)

/-- Modelled from the spec: validity of a record spec: the pack cap,
when set, is a positive power of two, and every field's size and
alignment are positive (spec §7). -/
def validSpec (s : RecordSpec) : Bool :=
  (match s.packCap with
   | some cap => isPowerOfTwo cap
   | none => true) &&
  s.fields.all fun f => decide (0 < f.size) && decide (0 < f.naturalAlignment)

/-- Modelled from the spec: `computeLayout(spec) -> LayoutResult`
(spec §4.1): validate the configuration, lay out the fields in
declaration order from cursor 0 with record alignment 1, then pad the
end of the record out to the record alignment (spec §4.1 step 3). -/
def computeLayout (s : RecordSpec) : Except LayoutError LayoutResult :=
  if validSpec s then
    let r := layoutFields s.packCap s.fields 0 1
    Except.ok
      { totalSize := r.2.1 + padTo r.2.2 r.2.1
        fields := r.1
        recordAlignment := r.2.2 }
  else
    Except.error LayoutError.InvalidConfiguration

/-- The four-field record of the spec's scenarios (spec §8):
`[byte(1,1), int(4,4), double(8,8), byte(1,1)]`. -/
def sampleFields : List FieldDescriptor :=
  [⟨"byte1", 1, 1⟩, ⟨"integer", 4, 4⟩, ⟨"floating", 8, 8⟩, ⟨"byte2", 1, 1⟩]

/-- The sample record under natural (uncapped) alignment. -/
def sampleSpec : RecordSpec := ⟨sampleFields, none⟩

/-- The sample record under `packCap = 2`. -/
def sampleSpecPack2 : RecordSpec := ⟨sampleFields, some 2⟩

/-- The sample record under `packCap = 1`. -/
def sampleSpecPack1 : RecordSpec := ⟨sampleFields, some 1⟩

/-- The sample record under the invalid `packCap = 3`. -/
def sampleSpecPack3 : RecordSpec := ⟨sampleFields, some 3⟩

/-- Sum of the declared sizes of a list of fields (spec §8:
`sum(size[i] for all i)`). -/
def sumSizes (fs : List FieldDescriptor) : Nat :=
  (fs.map (·.size)).sum

/-- The cumulative prefix sums of field sizes starting at `c`: the
offsets the spec prescribes under `packCap = 1` (spec §8). -/
def cumOffsets (c : Nat) : List FieldDescriptor → List Nat
  | [] => []
  | f :: fs => c :: cumOffsets (c + f.size) fs

/-- `noOverlapB out` checks the spec's no-overlap invariant: for every
pair of adjacent fields, `offset[i] + size[i] <= offset[i+1]`
(spec §3, §8). -/
def noOverlapB : List LayoutField → Bool
  | [] => true
  | [_] => true
  | a :: b :: rest => decide (a.offset + a.size ≤ b.offset) && noOverlapB (b :: rest)

/-- Modelled from the spec: well-formedness of a record spec in the
spec's own words (spec §7, §4.1): the pack cap, when set, is a positive
power of two, and every field's declared size and alignment are
positive.  Stated propositionally to compare with the executable
`validSpec` used by the engine. -/
def wellFormed (s : RecordSpec) : Prop :=
  (∀ cap, s.packCap = some cap → ∃ k, cap = 2 ^ k) ∧
  ∀ f ∈ s.fields, 0 < f.size ∧ 0 < f.naturalAlignment

/-- A record whose third field has natural alignment 2, below the pack
cap 4, but whose capped offset differs from its uncapped offset
because the cap moves the `double` field before it. -/
def shiftFields : List FieldDescriptor :=
  [⟨"byte1", 1, 1⟩, ⟨"floating", 8, 8⟩, ⟨"shortValue", 2, 2⟩]

/-- `shiftFields` laid out with no pack cap. -/
def shiftSpecNat : RecordSpec := ⟨shiftFields, none⟩

/-- `shiftFields` laid out with `packCap = 4`. -/
def shiftSpecPack4 : RecordSpec := ⟨shiftFields, some 4⟩

/-- The layout the engine produces for `sampleSpec` (natural
alignment): offsets 0, 4, 8, 16, total size 24, record alignment 8. -/
def sampleResult : LayoutResult :=
  { totalSize := 24
    fields := [⟨"byte1", 0, 1⟩, ⟨"integer", 4, 4⟩, ⟨"floating", 8, 8⟩, ⟨"byte2", 16, 1⟩]
    recordAlignment := 8 }

/-- The layout the engine produces for `sampleSpecPack1`: offsets
0, 1, 5, 13, total size 14, record alignment 1. -/
def pack1Result : LayoutResult :=
  { totalSize := 14
    fields := [⟨"byte1", 0, 1⟩, ⟨"integer", 1, 4⟩, ⟨"floating", 5, 8⟩, ⟨"byte2", 13, 1⟩]
    recordAlignment := 1 }

/-- C1: the sample record laid out with no pack cap has offsets
[0, 4, 8, 16], total size 24 and record alignment 8. -/
theorem computeLayout_default_scenario :
    (computeLayout sampleSpec).map
      (fun r => (r.fields.map (·.offset), r.totalSize, r.recordAlignment)) =
      Except.ok ([0, 4, 8, 16], 24, 8) := by
  rfl

/-- C2: the sample record laid out with `packCap = 2` has offsets
[0, 2, 6, 14] and total size 16. -/
theorem computeLayout_pack2_scenario :
    (computeLayout sampleSpecPack2).map
      (fun r => (r.fields.map (·.offset), r.totalSize)) =
      Except.ok ([0, 2, 6, 14], 16) := by
  rfl

/-- `isPowerOfTwo` decides membership in the powers of two. -/
lemma isPowerOfTwo_iff (n : Nat) : isPowerOfTwo n = true ↔ ∃ k, n = 2 ^ k := by
  simp only [isPowerOfTwo, List.any_eq_true, List.mem_range, beq_iff_eq]
  constructor
  · rintro ⟨k, -, h⟩
    exact ⟨k, h⟩
  · rintro ⟨k, rfl⟩
    exact ⟨k, Nat.lt_succ_of_lt (Nat.lt_two_pow k), rfl⟩

/-- A power of two in the sense of `isPowerOfTwo` is positive. -/
lemma isPowerOfTwo_pos {n : Nat} (h : isPowerOfTwo n = true) : 0 < n := by
  obtain ⟨k, rfl⟩ := (isPowerOfTwo_iff n).mp h
  exact pow_pos (by norm_num) k

/-- Advancing the cursor by `padTo a cursor` lands on a multiple of
`a`, for any positive alignment `a`. -/
lemma padTo_aligned (a c : Nat) (ha : 0 < a) : (c + padTo a c) % a = 0 := by
  unfold padTo
  rcases Nat.eq_zero_or_pos (c % a) with h | h
  · simp [h, Nat.add_mod, Nat.mod_self]
  · have hlt : c % a < a := Nat.mod_lt c ha
    have hsub : (a - c % a) % a = a - c % a :=
      Nat.mod_eq_of_lt (by omega)
    rw [hsub]
    have hdm := Nat.div_add_mod c a
    have : c + (a - c % a) = a * (c / a) + a := by omega
    rw [this]
    simp [Nat.add_mod, Nat.mul_mod_right, Nat.mod_self]

/-- The laid-out fields carry the names of the descriptors, in order. -/
lemma layoutFields_map_name (pc : Option Nat) :
    ∀ (fs : List FieldDescriptor) (c ra : Nat),
      (layoutFields pc fs c ra).1.map (·.name) = fs.map (·.name) := by
  intro fs
  induction fs with
  | nil => intro c ra; simp [layoutFields]
  | cons f fs ih => intro c ra; simp [layoutFields, ih]

/-- The laid-out fields carry the sizes of the descriptors, in order. -/
lemma layoutFields_map_size (pc : Option Nat) :
    ∀ (fs : List FieldDescriptor) (c ra : Nat),
      (layoutFields pc fs c ra).1.map (·.size) = fs.map (·.size) := by
  intro fs
  induction fs with
  | nil => intro c ra; simp [layoutFields]
  | cons f fs ih => intro c ra; simp [layoutFields, ih]

/-- Every emitted offset is at least the cursor the layout started
from. -/
lemma layoutFields_offset_ge (pc : Option Nat) :
    ∀ (fs : List FieldDescriptor) (c ra : Nat),
      ∀ lf ∈ (layoutFields pc fs c ra).1, c ≤ lf.offset := by
  intro fs
  induction fs with
  | nil => intro c ra lf h; simp [layoutFields] at h
  | cons f fs ih =>
    intro c ra lf h
    simp only [layoutFields, List.mem_cons] at h
    rcases h with rfl | h
    · exact Nat.le_add_right _ _
    · have := ih (c + padTo (effAlign pc f.naturalAlignment) c + f.size)
        (max ra (effAlign pc f.naturalAlignment)) lf h
      omega

/-- The final cursor is at least the starting cursor plus the sum of
the field sizes: padding is never negative. -/
lemma layoutFields_cursor_ge (pc : Option Nat) :
    ∀ (fs : List FieldDescriptor) (c ra : Nat),
      c + sumSizes fs ≤ (layoutFields pc fs c ra).2.1 := by
  intro fs
  induction fs with
  | nil => intro c ra; simp [layoutFields, sumSizes]
  | cons f fs ih =>
    intro c ra
    have := ih (c + padTo (effAlign pc f.naturalAlignment) c + f.size)
      (max ra (effAlign pc f.naturalAlignment))
    simp only [layoutFields, sumSizes, List.map_cons, List.sum_cons] at *
    omega

/-- The final record alignment is at least the starting one. -/
lemma layoutFields_ra_ge (pc : Option Nat) :
    ∀ (fs : List FieldDescriptor) (c ra : Nat),
      ra ≤ (layoutFields pc fs c ra).2.2 := by
  intro fs
  induction fs with
  | nil => intro c ra; simp [layoutFields]
  | cons f fs ih =>
    intro c ra
    have := ih (c + padTo (effAlign pc f.naturalAlignment) c + f.size)
      (max ra (effAlign pc f.naturalAlignment))
    simp only [layoutFields] at *
    omega

/-- Adjacent laid-out fields never overlap. -/
lemma layoutFields_noOverlap (pc : Option Nat) :
    ∀ (fs : List FieldDescriptor) (c ra : Nat),
      noOverlapB (layoutFields pc fs c ra).1 = true := by
  intro fs
  induction fs with
  | nil => intro c ra; simp [layoutFields, noOverlapB]
  | cons f fs ih =>
    intro c ra
    simp only [layoutFields]
    cases hrest : (layoutFields pc fs
        (c + padTo (effAlign pc f.naturalAlignment) c + f.size)
        (max ra (effAlign pc f.naturalAlignment))).1 with
    | nil => simp [noOverlapB]
    | cons b rest =>
      have hb : c + padTo (effAlign pc f.naturalAlignment) c + f.size ≤ b.offset := by
        apply layoutFields_offset_ge pc fs _ _ b
        rw [hrest]
        exact List.mem_cons_self _ _
      have ht := ih (c + padTo (effAlign pc f.naturalAlignment) c + f.size)
        (max ra (effAlign pc f.naturalAlignment))
      rw [hrest] at ht
      simp only [noOverlapB, Bool.and_eq_true, decide_eq_true_iff]
      exact ⟨by omega, ht⟩

/-- Each laid-out field's offset is a multiple of its effective
alignment, provided every effective alignment is positive. -/
lemma layoutFields_aligned (pc : Option Nat) :
    ∀ (fs : List FieldDescriptor) (c ra : Nat),
      (∀ f ∈ fs, 0 < effAlign pc f.naturalAlignment) →
      ∀ p ∈ (layoutFields pc fs c ra).1.zip fs,
        p.1.offset % effAlign pc p.2.naturalAlignment = 0 := by
  intro fs
  induction fs with
  | nil => intro c ra _ p hp; simp [layoutFields] at hp
  | cons f fs ih =>
    intro c ra hpos p hp
    simp only [layoutFields, List.zip_cons_cons, List.mem_cons] at hp
    rcases hp with rfl | hp
    · exact padTo_aligned _ c (hpos f (List.mem_cons_self f fs))
    · exact ih (c + padTo (effAlign pc f.naturalAlignment) c + f.size)
        (max ra (effAlign pc f.naturalAlignment))
        (fun g hg => hpos g (List.mem_cons_of_mem f hg)) p hp

/-- Under `packCap = 1` every effective alignment is 1, so the layout
is the plain prefix-sum layout: offsets are cumulative sums of sizes,
the final cursor adds exactly the sum of the sizes, and the record
alignment is unchanged (up to the trivial `max` with 1). -/
lemma layoutFields_pack1 :
    ∀ (fs : List FieldDescriptor) (c ra : Nat),
      (∀ f ∈ fs, 0 < f.naturalAlignment) → 1 ≤ ra →
      (layoutFields (some 1) fs c ra).1.map (·.offset) = cumOffsets c fs ∧
      (layoutFields (some 1) fs c ra).2.1 = c + sumSizes fs ∧
      (layoutFields (some 1) fs c ra).2.2 = ra := by
  intro fs
  induction fs with
  | nil => intro c ra _ _; simp [layoutFields, cumOffsets, sumSizes]
  | cons f fs ih =>
    intro c ra hpos hra
    have ha : effAlign (some 1) f.naturalAlignment = 1 := by
      simp only [effAlign]
      exact min_eq_right (hpos f (List.mem_cons_self f fs))
    have hpad : padTo (effAlign (some 1) f.naturalAlignment) c = 0 := by
      rw [ha]
      unfold padTo
      omega
    have hra' : 1 ≤ max ra (effAlign (some 1) f.naturalAlignment) :=
      le_trans hra (le_max_left _ _)
    obtain ⟨h1, h2, h3⟩ :=
      ih (c + padTo (effAlign (some 1) f.naturalAlignment) c + f.size)
        (max ra (effAlign (some 1) f.naturalAlignment))
        (fun g hg => hpos g (List.mem_cons_of_mem f hg)) hra'
    refine ⟨?_, ?_, ?_⟩
    · simp only [layoutFields, List.map_cons]
      rw [h1, hpad]
      simp [cumOffsets]
    · simp only [layoutFields]
      rw [h2, hpad]
      simp only [sumSizes, List.map_cons, List.sum_cons]
      omega
    · simp only [layoutFields]
      rw [h3, ha]
      exact max_eq_left hra

/-- The executable validity check agrees with the spec's propositional
well-formedness condition. -/
lemma validSpec_iff (s : RecordSpec) : validSpec s = true ↔ wellFormed s := by
  unfold validSpec wellFormed
  rw [Bool.and_eq_true, List.all_eq_true]
  constructor
  · rintro ⟨hcap, hfs⟩
    refine ⟨?_, ?_⟩
    · intro cap hc
      rw [hc] at hcap
      exact (isPowerOfTwo_iff cap).mp hcap
    · intro f hf
      have := hfs f hf
      rw [Bool.and_eq_true, decide_eq_true_iff, decide_eq_true_iff] at this
      exact this
  · rintro ⟨hcap, hfs⟩
    refine ⟨?_, ?_⟩
    · cases hc : s.packCap with
      | none => rfl
      | some cap => exact (isPowerOfTwo_iff cap).mpr (hcap cap hc)
    · intro f hf
      rw [Bool.and_eq_true, decide_eq_true_iff, decide_eq_true_iff]
      exact hfs f hf

/-- A valid spec has positive effective alignments throughout. -/
lemma validSpec_effAlign_pos (s : RecordSpec) (hv : validSpec s = true) :
    ∀ f ∈ s.fields, 0 < effAlign s.packCap f.naturalAlignment := by
  unfold validSpec at hv
  rw [Bool.and_eq_true, List.all_eq_true] at hv
  intro f hf
  have hfp := hv.2 f hf
  rw [Bool.and_eq_true, decide_eq_true_iff, decide_eq_true_iff] at hfp
  cases hc : s.packCap with
  | none => simpa [effAlign] using hfp.2
  | some cap =>
    have hcap : isPowerOfTwo cap = true := by
      rw [hc] at hv
      exact hv.1
    have := isPowerOfTwo_pos hcap
    simp [effAlign, Nat.lt_min]
    exact ⟨hfp.2, this⟩

/-- On a valid spec `computeLayout` succeeds and returns the fields,
cursor and record alignment produced by `layoutFields`, with the end
padded to the record alignment. -/
lemma computeLayout_ok (s : RecordSpec) (r : LayoutResult)
    (h : computeLayout s = Except.ok r) :
    validSpec s = true ∧
    r.fields = (layoutFields s.packCap s.fields 0 1).1 ∧
    r.totalSize = (layoutFields s.packCap s.fields 0 1).2.1 +
      padTo (layoutFields s.packCap s.fields 0 1).2.2
        (layoutFields s.packCap s.fields 0 1).2.1 ∧
    r.recordAlignment = (layoutFields s.packCap s.fields 0 1).2.2 := by
  unfold computeLayout at h
  split at h
  · rename_i hv
    injection h with h
    subst h
    exact ⟨hv, rfl, rfl, rfl⟩
  · cases h

/-- A valid spec has positive natural alignments throughout. -/
lemma validSpec_align_pos (s : RecordSpec) (hv : validSpec s = true) :
    ∀ f ∈ s.fields, 0 < f.naturalAlignment := by
  unfold validSpec at hv
  rw [Bool.and_eq_true, List.all_eq_true] at hv
  intro f hf
  have := hv.2 f hf
  rw [Bool.and_eq_true, decide_eq_true_iff, decide_eq_true_iff] at this
  exact this.2

/-- C3: under `packCap = 1` the layout has no padding anywhere: the
total size is exactly the sum of the field sizes and each offset is
the cumulative prefix sum of the sizes of the fields before it. -/
theorem computeLayout_pack1_no_padding (fields : List FieldDescriptor) (r : LayoutResult)
    (h : computeLayout ⟨fields, some 1⟩ = Except.ok r) :
    r.totalSize = sumSizes fields ∧ r.fields.map (·.offset) = cumOffsets 0 fields := by
  obtain ⟨hv, hf, ht, hra⟩ := computeLayout_ok _ r h
  have hpos : ∀ f ∈ fields, 0 < f.naturalAlignment :=
    validSpec_align_pos ⟨fields, some 1⟩ hv
  obtain ⟨h1, h2, h3⟩ := layoutFields_pack1 fields 0 1 hpos (le_refl 1)
  constructor
  · rw [ht]
    show (layoutFields (some 1) fields 0 1).2.1 +
      padTo (layoutFields (some 1) fields 0 1).2.2
        (layoutFields (some 1) fields 0 1).2.1 = sumSizes fields
    rw [h2, h3]
    unfold padTo
    omega
  · rw [hf]
    exact h1

/-- C3 witness: the pack(1) scenario instantiates the theorem. -/
theorem computeLayout_pack1_no_padding_witness :
    computeLayout ⟨sampleFields, some 1⟩ = Except.ok pack1Result ∧
    pack1Result.totalSize = sumSizes sampleFields ∧
    pack1Result.fields.map (·.offset) = cumOffsets 0 sampleFields :=
  ⟨rfl, computeLayout_pack1_no_padding sampleFields pack1Result rfl⟩

/-- C4: every field's offset in a computed layout is a multiple of the
field's effective alignment (`min(naturalAlignment, packCap)` when the
cap is set, `naturalAlignment` otherwise). -/
theorem computeLayout_offsets_aligned (s : RecordSpec) (r : LayoutResult)
    (h : computeLayout s = Except.ok r) :
    ∀ p ∈ r.fields.zip s.fields,
      p.1.offset % effAlign s.packCap p.2.naturalAlignment = 0 := by
  obtain ⟨hv, hf, -, -⟩ := computeLayout_ok s r h
  rw [hf]
  exact layoutFields_aligned s.packCap s.fields 0 1 (validSpec_effAlign_pos s hv)

/-- C4 witness: the natural-alignment scenario instantiates the
theorem. -/
theorem computeLayout_offsets_aligned_witness :
    computeLayout sampleSpec = Except.ok sampleResult ∧
    (sampleResult.fields.zip sampleSpec.fields).all
      (fun p => p.1.offset % effAlign sampleSpec.packCap p.2.naturalAlignment == 0) = true := by
  refine ⟨rfl, ?_⟩
  rw [List.all_eq_true]
  intro p hp
  rw [beq_iff_eq]
  exact computeLayout_offsets_aligned sampleSpec sampleResult rfl p hp

/-- C5: adjacent fields of a computed layout never overlap:
`offset[i] + size[i] <= offset[i+1]`. -/
theorem computeLayout_no_overlap (s : RecordSpec) (r : LayoutResult)
    (h : computeLayout s = Except.ok r) :
    noOverlapB r.fields = true := by
  obtain ⟨-, hf, -, -⟩ := computeLayout_ok s r h
  rw [hf]
  exact layoutFields_noOverlap s.packCap s.fields 0 1

/-- C5 witness: the natural-alignment scenario instantiates the
theorem. -/
theorem computeLayout_no_overlap_witness :
    computeLayout sampleSpec = Except.ok sampleResult ∧
    noOverlapB sampleResult.fields = true :=
  ⟨rfl, computeLayout_no_overlap sampleSpec sampleResult rfl⟩

/-- C6: a computed layout's total size is an exact multiple of its
record alignment: the record end is padded to the record's own
alignment. -/
theorem computeLayout_totalSize_multiple (s : RecordSpec) (r : LayoutResult)
    (h : computeLayout s = Except.ok r) :
    r.totalSize % r.recordAlignment = 0 := by
  obtain ⟨-, -, ht, hra⟩ := computeLayout_ok s r h
  have hpos : 0 < (layoutFields s.packCap s.fields 0 1).2.2 :=
    lt_of_lt_of_le one_pos (layoutFields_ra_ge s.packCap s.fields 0 1)
  rw [ht, hra]
  exact padTo_aligned _ _ hpos

/-- C6 witness: the natural-alignment scenario instantiates the
theorem. -/
theorem computeLayout_totalSize_multiple_witness :
    computeLayout sampleSpec = Except.ok sampleResult ∧
    sampleResult.totalSize % sampleResult.recordAlignment = 0 :=
  ⟨rfl, computeLayout_totalSize_multiple sampleSpec sampleResult rfl⟩

/-- C7 counterexample: with fields `[byte(1,1), double(8,8),
short(2,2)]` and `packCap = 4`, the third field's natural alignment 2
is below the cap 4, yet its offset is 12 under the cap and 16 under
natural layout: a cap above a field's natural alignment can still
change that field's offset, because it moves earlier fields. -/
theorem packCap_changes_offset_counterexample :
    (shiftFields.map (·.naturalAlignment)).get? 2 = some 2 ∧
    (2 : Nat) ≤ 4 ∧
    (computeLayout shiftSpecPack4).map (fun r => r.fields.map (·.offset)) =
      Except.ok [0, 4, 12] ∧
    (computeLayout shiftSpecNat).map (fun r => r.fields.map (·.offset)) =
      Except.ok [0, 8, 16] ∧
    (12 : Nat) ≠ 16 := by
  refine ⟨rfl, by norm_num, rfl, rfl, by norm_num⟩

/-- C7 (amended): the pack cap only ever reduces a field's effective
alignment, never increases it, and for a field whose natural alignment
is at most the cap, the effective alignment and the padding inserted
before it at any given cursor are the same as under natural (uncapped)
layout.  (The field's absolute offset can still differ, because the
cap may move earlier fields.) -/
theorem effAlign_cap_only_reduces (na cap cursor : Nat) :
    effAlign (some cap) na ≤ effAlign none na ∧
    (na ≤ cap →
      effAlign (some cap) na = effAlign none na ∧
      padTo (effAlign (some cap) na) cursor = padTo (effAlign none na) cursor) := by
  have hle : effAlign (some cap) na ≤ effAlign none na := by
    simp only [effAlign]
    exact min_le_left _ _
  refine ⟨hle, fun h => ?_⟩
  have he : effAlign (some cap) na = effAlign none na := by
    simp only [effAlign]
    exact min_eq_left h
  exact ⟨he, by rw [he]⟩

/-- C7 (amended) witness: instantiated at natural alignment 2, cap 4,
cursor 5. -/
theorem effAlign_cap_only_reduces_witness :
    (2 : Nat) ≤ 4 ∧
    effAlign (some 4) 2 ≤ effAlign none 2 ∧
    effAlign (some 4) 2 = effAlign none 2 ∧
    padTo (effAlign (some 4) 2) 5 = padTo (effAlign none 2) 5 :=
  ⟨by norm_num, (effAlign_cap_only_reduces 2 4 5).1,
    ((effAlign_cap_only_reduces 2 4 5).2 (by norm_num)).1,
    ((effAlign_cap_only_reduces 2 4 5).2 (by norm_num)).2⟩

/-- C8: the engine fails, with `InvalidConfiguration` and no layout
result, exactly on the specs that are not well formed (pack cap not a
positive power of two, or a non-positive field size or alignment); on
every well-formed spec it returns a result; and `packCap = 3` in
particular is rejected. -/
theorem computeLayout_invalidConfiguration :
    (∀ s : RecordSpec,
      computeLayout s = Except.error LayoutError.InvalidConfiguration ↔ ¬ wellFormed s) ∧
    (∀ s : RecordSpec, wellFormed s → ∃ r, computeLayout s = Except.ok r) ∧
    computeLayout sampleSpecPack3 = Except.error LayoutError.InvalidConfiguration := by
  refine ⟨?_, ?_, rfl⟩
  · intro s
    unfold computeLayout
    split
    · rename_i hv
      constructor
      · intro h
        exact Except.noConfusion h
      · intro hw
        exact absurd ((validSpec_iff s).mp hv) hw
    · rename_i hv
      have hnw : ¬ wellFormed s := fun hw => hv ((validSpec_iff s).mpr hw)
      simp [hnw]
  · intro s hw
    have hv : validSpec s = true := (validSpec_iff s).mpr hw
    simp only [computeLayout, hv, if_true]
    exact ⟨_, rfl⟩

/-- C8 witness: the natural-alignment sample spec is well formed and
the engine succeeds on it. -/
theorem computeLayout_invalidConfiguration_witness :
    wellFormed sampleSpec ∧ ∃ r, computeLayout sampleSpec = Except.ok r := by
  have hw : wellFormed sampleSpec := by
    constructor
    · intro cap h
      exact Option.noConfusion h
    · decide
  exact ⟨hw, computeLayout_invalidConfiguration.2.1 sampleSpec hw⟩

/-- C9: a computed layout lists exactly the spec's fields, with the
same names and sizes, in declaration order: the engine never reorders
fields. -/
theorem computeLayout_preserves_order (s : RecordSpec) (r : LayoutResult)
    (h : computeLayout s = Except.ok r) :
    r.fields.map (·.name) = s.fields.map (·.name) ∧
    r.fields.map (·.size) = s.fields.map (·.size) := by
  obtain ⟨-, hf, -, -⟩ := computeLayout_ok s r h
  rw [hf]
  exact ⟨layoutFields_map_name s.packCap s.fields 0 1,
    layoutFields_map_size s.packCap s.fields 0 1⟩

/-- C9 witness: the natural-alignment scenario instantiates the
theorem. -/
theorem computeLayout_preserves_order_witness :
    computeLayout sampleSpec = Except.ok sampleResult ∧
    sampleResult.fields.map (·.name) = sampleSpec.fields.map (·.name) ∧
    sampleResult.fields.map (·.size) = sampleSpec.fields.map (·.size) :=
  ⟨rfl, computeLayout_preserves_order sampleSpec sampleResult rfl⟩

/-- C10: a computed layout's total size is at least the sum of the
declared field sizes (padding is never negative), with equality under
`packCap = 1`. -/
theorem computeLayout_totalSize_ge (s : RecordSpec) (r : LayoutResult)
    (h : computeLayout s = Except.ok r) :
    sumSizes s.fields ≤ r.totalSize ∧
    (s.packCap = some 1 → r.totalSize = sumSizes s.fields) := by
  obtain ⟨hv, -, ht, -⟩ := computeLayout_ok s r h
  constructor
  · have hc := layoutFields_cursor_ge s.packCap s.fields 0 1
    rw [ht]
    omega
  · intro hp
    have hpos : ∀ f ∈ s.fields, 0 < f.naturalAlignment := validSpec_align_pos s hv
    rw [hp] at ht
    obtain ⟨-, h2, h3⟩ := layoutFields_pack1 s.fields 0 1 hpos (le_refl 1)
    rw [ht, h2, h3]
    unfold padTo
    omega

/-- C10 witness: the pack(1) scenario instantiates the theorem. -/
theorem computeLayout_totalSize_ge_witness :
    computeLayout sampleSpecPack1 = Except.ok pack1Result ∧
    sumSizes sampleSpecPack1.fields ≤ pack1Result.totalSize ∧
    (sampleSpecPack1.packCap = some 1 →
      pack1Result.totalSize = sumSizes sampleSpecPack1.fields) :=
  ⟨rfl, computeLayout_totalSize_ge sampleSpecPack1 pack1Result rfl⟩
